import Mathlib

/-!
Verification of the name-normalization / cross-source matching logic and the
grid layout code of the lipidation-site scripts.

Strings are modelled as `List Char`.  Python float arithmetic is modelled
exactly over `ℚ`; Python `int(...)` (truncation toward zero) is `pyInt`.
Python's `str.lower` is modelled on ASCII letters (`lowerChar`), and the
`\w` regex class as ASCII alphanumerics plus underscore; all inputs
appearing in the scripts and in the claims are ASCII.
-/

/-! ## Character classes -/

/-- Characters treated as whitespace by Python's `str.strip()` / `str.isspace()`
(ASCII whitespace plus the common Unicode space characters). -/
def pyWsChars : List Char :=
  [' ', '\t', '\n', '\r', '\x0b', '\x0c',
   '\x1c', '\x1d', '\x1e', '\x1f', '\x85', ' ', ' ',
   ' ', ' ', ' ', ' ', ' ', ' ', ' ',
   ' ', ' ', ' ', ' ', ' ', ' ', ' ',
   ' ', '　']

def isWs (c : Char) : Bool := pyWsChars.contains c

/-- Zero-width / BOM characters removed by `_normalize_name_for_match`
(`re.sub(r"[​‌‍﻿]", "", s)`). -/
def zwChars : List Char := ['​', '‌', '‍', '﻿']

def isZw (c : Char) : Bool := zwChars.contains c

def upperAscii : List Char :=
  ['A', 'B', 'C', 'D', 'E', 'F', 'G', 'H', 'I', 'J', 'K', 'L', 'M',
   'N', 'O', 'P', 'Q', 'R', 'S', 'T', 'U', 'V', 'W', 'X', 'Y', 'Z']

def lowerAscii : List Char :=
  ['a', 'b', 'c', 'd', 'e', 'f', 'g', 'h', 'i', 'j', 'k', 'l', 'm',
   'n', 'o', 'p', 'q', 'r', 's', 't', 'u', 'v', 'w', 'x', 'y', 'z']

/-- Upper-to-lower ASCII letter table. -/
def asciiPairs : List (Char × Char) := upperAscii.zip lowerAscii

/-- ASCII model of Python `str.lower` applied per character. -/
def lowerChar (c : Char) : Char :=
  match asciiPairs.find? (fun p => p.1 == c) with
  | some p => p.2
  | none => c

/-- Replacement applied inside parenthesised groups
(`inner.replace('_', '/')` in `_normalize_name_for_match`). -/
def u2s (c : Char) : Char := if c = '_' then '/' else c

/-! ## String pipeline of `_normalize_name_for_match` (plot_maldi_constructs.py) -/

/-- Drop the longest run of characters satisfying `p` from the end. -/
def dropTrail (p : Char → Bool) (s : List Char) : List Char :=
  (s.reverse.dropWhile p).reverse

/-- Python `str.strip()`. -/
def pyStrip (s : List Char) : List Char := dropTrail isWs (s.dropWhile isWs)

/-- Removal of zero-width / BOM characters. -/
def removeZw (s : List Char) : List Char := s.filter (fun c => !isZw c)

/-- Python `str.replace(" ", "")`: only the plain space character is removed. -/
def eraseSpaces (s : List Char) : List Char := s.filter (fun c => c != ' ')

/-- Worker for the substitution `re.sub(r"\(([^)]*)\)", paren_fix, s)`:
the state records whether the scan is inside a matched group, i.e. between a
`'('` that is followed by some later `')'` and the first such `')'`. -/
def parenFixGo : Bool → List Char → List Char
  | _, [] => []
  | false, c :: rest =>
    if c = '(' ∧ ')' ∈ rest then '(' :: parenFixGo true rest
    else c :: parenFixGo false rest
  | true, c :: rest =>
    if c = ')' then ')' :: parenFixGo false rest
    else u2s c :: parenFixGo true rest

def parenFix (s : List Char) : List Char := parenFixGo false s

def lowerStr (s : List Char) : List Char := s.map lowerChar

/-- Embedding of `_normalize_name_for_match` from `MALDI/plot_maldi_constructs.py`:
remove zero-width characters, strip, delete spaces, replace `_` by `/` inside
parenthesised groups, lower-case. -/
def normalizeNameForMatch (s : List Char) : List Char :=
  lowerStr (parenFix (eraseSpaces (pyStrip (removeZw s))))

/-! ## `_norm_name` (make_hplc_pptx.py) -/

/-- ASCII model of the regex class `\w`. -/
def isWordChar (c : Char) : Bool := c.isAlphanum || c = '_'

/-- Character matched by `[^\w\-]`. -/
def nonWordChar (c : Char) : Bool := !(isWordChar c || c = '-')

/-- Collapse runs of underscores to a single underscore (`re.sub(r"_+", "_", s)`). -/
def collapseUnders : List Char → List Char
  | [] => []
  | c :: rest =>
    if c = '_' ∧ rest.head? = some '_' then collapseUnders rest
    else c :: collapseUnders rest

/-- Embedding of `_norm_name` from `HPLC/make_hplc_pptx.py`: strip, spaces to
underscores, non-word characters to underscores, collapse underscore runs,
strip underscores.  (Replacing each bad character and then collapsing runs is
equivalent to replacing each maximal bad run by one underscore and collapsing.) -/
def normName (s : List Char) : List Char :=
  let s1 := pyStrip s
  let s2 := s1.map (fun c => if c = ' ' then '_' else c)
  let s3 := s2.map (fun c => if nonWordChar c then '_' else c)
  let s4 := collapseUnders s3
  dropTrail (fun c => c == '_') (s4.dropWhile (fun c => c == '_'))

/-! ## Disambiguation suffix (plot_hplc.py) -/

/-- The fixed disambiguation tag used for Page-3 construct collisions. -/
def p3suffix : List Char := "_p3distinct".data

/-- Application of the suffix: the rename `f"{c}_p3distinct"` in `plot_hplc.py`. -/
def applyP3Suffix (s : List Char) : List Char := s ++ p3suffix

/-- Fuel-indexed model of Python `str.replace(pat, "")`: scan left to right,
deleting each non-overlapping occurrence of `pat`.  The fuel only needs to be
at least the input length when `pat` is nonempty. -/
def pyReplaceFuel (pat : List Char) : Nat → List Char → List Char
  | 0, xs => xs
  | _ + 1, [] => []
  | fuel + 1, c :: rest =>
    if pat ≠ [] ∧ pat.isPrefixOf (c :: rest) then
      pyReplaceFuel pat fuel ((c :: rest).drop pat.length)
    else c :: pyReplaceFuel pat fuel rest

/-- The suffix-stripping step `s.replace("_p3distinct", "")` of
`_clean_construct_name` in `plot_hplc.py`. -/
def stripP3Suffix (s : List Char) : List Char :=
  pyReplaceFuel p3suffix s.length s

/-! ## Grid layout: arithmetic helpers -/

/-- Python `int(...)` on an exact rational: truncation toward zero. -/
def pyInt (q : ℚ) : ℤ := if q < 0 then ⌈q⌉ else ⌊q⌋

/-- Contain fit (`scale = min(cell_w / w, cell_h / h)`) as used in
`add_fill_grid_slide_no_captions`; returns the scaled width and height. -/
def containFit (cw ch pw ph : ℤ) : ℤ × ℤ :=
  let s : ℚ := min ((cw : ℚ) / (pw : ℚ)) ((ch : ℚ) / (ph : ℚ))
  (pyInt ((pw : ℚ) * s), pyInt ((ph : ℚ) * s))

/-- Cover fit (`scale = max(cell_w / w, cell_h / h)`) as used in
`add_grid_slides` and `add_captioned_grid_slide`. -/
def coverFit (cw ch pw ph : ℤ) : ℤ × ℤ :=
  let s : ℚ := max ((cw : ℚ) / (pw : ℚ)) ((ch : ℚ) / (ph : ℚ))
  (pyInt ((pw : ℚ) * s), pyInt ((ph : ℚ) * s))

/-! ## Grid layout: THT cell geometry (add_images_to_ppt.py) -/

/-- Available extent after margins and inter-item spacing:
`total - 2 * margin - spacing * (k - 1)` (lengths in EMU integers). -/
def availSize (total m sp k : ℤ) : ℤ := total - 2 * m - sp * (k - 1)

/-- Cell width of `add_fill_grid_slide_no_captions` / `add_captioned_grid_slide`:
`cell_w = int(avail_w / cols)`. -/
def thtCellW (w m hs cols : ℤ) : ℤ :=
  pyInt ((availSize w m hs cols : ℚ) / (cols : ℚ))

/-- Cell height of `add_fill_grid_slide_no_captions`:
`min(int(cell_w / (6.5 / 5)), int(avail_h / rows))`. -/
def thtCellH (w h m hs vs cols rows : ℤ) : ℤ :=
  min (pyInt ((thtCellW w m hs cols : ℚ) / (13 / 10 : ℚ)))
    (pyInt ((availSize h m vs rows : ℚ) / (rows : ℚ)))

/-- Cell height of `add_captioned_grid_slide`: `int(avail_h / rows)`. -/
def capCellH (h m vs rows : ℤ) : ℤ :=
  pyInt ((availSize h m vs rows : ℚ) / (rows : ℚ))

/-- Image height of `add_captioned_grid_slide`: `max(1, cell_h - int(caption_h))` —
an explicit clamp to a minimum of one EMU. -/
def capImgH (cellH capH : ℤ) : ℤ := max 1 (cellH - capH)

/-! ## Grid layout: single-slide placement (items capped at cols*rows) -/

/-- Grid coordinates of slot `i`: row-major (`fill_order='row'`) or
column-major (`fill_order='column'`). -/
def slotRC (rowOrder : Bool) (cols rows i : Nat) : Nat × Nat :=
  if rowOrder then (i / cols, i % cols) else (i % rows, i / rows)

/-- Placements produced by `add_fill_grid_slide_no_captions` for one slide:
only `items[: cols * rows]` are enumerated; each gets a contain-fitted
rectangle centered in its cell.  Each result pairs the original item with
`(left, top, width, height)`. -/
def fillGridPlacements (rowOrder : Bool) (cols rows : Nat)
    (cellW cellH hs vs oL oT : ℤ) (items : List (ℤ × ℤ)) :
    List ((ℤ × ℤ) × (ℤ × ℤ × ℤ × ℤ)) :=
  ((items.take (cols * rows)).enum).map (fun p =>
    let rc := slotRC rowOrder cols rows p.1
    let left := oL + (rc.2 : ℤ) * (cellW + hs)
    let top := oT + (rc.1 : ℤ) * (cellH + vs)
    let wh := containFit cellW cellH p.2.1 p.2.2
    (p.2, (pyInt ((left : ℚ) + ((cellW : ℚ) - (wh.1 : ℚ)) / 2),
           pyInt ((top : ℚ) + ((cellH : ℚ) - (wh.2 : ℚ)) / 2),
           wh.1, wh.2)))

/-- Placements produced by `add_captioned_grid_slide` for one slide: again only
`items[: cols * rows]` are enumerated; each gets a cover-fitted rectangle in the
caption-reduced cell. -/
def capGridPlacements (cols rows : Nat) (cellW cellH capH hs vs oL oT : ℤ)
    (items : List (ℤ × ℤ)) : List ((ℤ × ℤ) × (ℤ × ℤ × ℤ × ℤ)) :=
  ((items.take (cols * rows)).enum).map (fun p =>
    let r := p.1 / cols
    let c := p.1 % cols
    let left := oL + (c : ℤ) * (cellW + hs)
    let top := oT + (r : ℤ) * (cellH + vs)
    let wh := coverFit cellW (capImgH cellH capH) p.2.1 p.2.2
    (p.2, (pyInt ((left : ℚ) + ((cellW : ℚ) - (wh.1 : ℚ)) / 2),
           pyInt ((top : ℚ) + ((capImgH cellH capH : ℚ) - (wh.2 : ℚ)) / 2),
           wh.1, wh.2)))

/-! ## Grid layout: pagination -/

/-- Fuel-indexed chunking; with fuel at least the list length and a positive
chunk size this is `[items[0:per], items[per:2*per], ...]`, the slicing loop of
`add_fill_grid_slides_no_captions_paginated`. -/
def chunksAux {α : Type*} (per : Nat) : Nat → List α → List (List α)
  | 0, _ => []
  | _ + 1, [] => []
  | fuel + 1, x :: xs => (x :: xs).take per :: chunksAux per fuel ((x :: xs).drop per)

/-- The per-slide chunks of `add_fill_grid_slides_no_captions_paginated`:
one chunk (= one new slide) per `range(0, len(items), per_slide)` step. -/
def chunks {α : Type*} (per : Nat) (l : List α) : List (List α) :=
  chunksAux per l.length l

/-- The placement loop of `build_pptx` in `make_hplc_pptx.py`.  State: current
column `c`, row `r`, slide index `s`.  Each item is recorded with its slide
index; after placing, the cursor advances, and a fresh slide is opened exactly
when a row wraps past the last row and more items remain
(`if r >= per_col and idx < len(imgs) - 1`). -/
def hplcGo {α : Type*} (perRow perCol : Nat) :
    Nat → Nat → Nat → List α → List (α × Nat) × Nat
  | _, _, s, [] => ([], s)
  | c, r, s, x :: rest =>
    if c + 1 ≥ perRow then
      if r + 1 ≥ perCol ∧ rest.isEmpty = false then
        let p := hplcGo perRow perCol 0 0 (s + 1) rest
        ((x, s) :: p.1, p.2)
      else
        let p := hplcGo perRow perCol 0 (r + 1) s rest
        ((x, s) :: p.1, p.2)
    else
      let p := hplcGo perRow perCol (c + 1) r s rest
      ((x, s) :: p.1, p.2)

/-- Items of `build_pptx` paired with the slide index they are placed on. -/
def hplcPlacements {α : Type*} (pr pc : Nat) (items : List α) : List (α × Nat) :=
  (hplcGo pr pc 0 0 0 items).1

/-- Number of slides created by `build_pptx`: one slide is added before the
loop, plus one per new-slide trigger. -/
def hplcSlideCount {α : Type*} (pr pc : Nat) (items : List α) : Nat :=
  (hplcGo pr pc 0 0 0 items).2 + 1

/-! ## Grid centering (make_maldi_ppt.py / make_hplc_pptx.py) -/

/-- Left origin of `grid_positions` in `make_maldi_ppt.py`:
`(page_w - 2 * margin - grid_w) / 2 + margin` (inches, no clamping). -/
def gridLeft (pageW m gridW : ℚ) : ℚ := (pageW - 2 * m - gridW) / 2 + m

/-- Full position list of `grid_positions`. -/
def gridPositions (rows cols : Nat) (imgW imgH hs vs pageW pageH m : ℚ) :
    List (ℚ × ℚ) :=
  let gridW := (cols : ℚ) * imgW + ((cols : ℚ) - 1) * hs
  let gridH := (rows : ℚ) * imgH + ((rows : ℚ) - 1) * vs
  (List.range rows).flatMap (fun r =>
    (List.range cols).map (fun c =>
      (gridLeft pageW m gridW + (c : ℚ) * (imgW + hs),
       gridLeft pageH m gridH + (r : ℚ) * (imgH + vs))))

/-- Centering margin of `build_pptx` in `make_hplc_pptx.py`:
`max(0.0, (slide_w_in - grid_w) / 2)` — clamped at zero. -/
def hplcCenterMargin (slideW gridW : ℚ) : ℚ := max 0 ((slideW - gridW) / 2)

/-! ## Cross-source matching (add_page_constructs in make_hplc_pptx.py) -/

/-- Lookup in the `img_map` association list. -/
def lookupKey {V : Type*} (m : List (List Char × V)) (k : List Char) : Option V :=
  (m.find? (fun e => e.1 == k)).map (fun e => e.2)

/-- Embedding of `add_page_constructs`: for each raw construct name, first try
the disambiguated key (when a distinct suffix is supplied), then the plain
normalized key; emit the mapped value only if the key is present in the item
map and not already seen. -/
def addPageConstructs {V : Type*} (m : List (List Char × V))
    (dsuf : Option (List Char)) :
    List (List Char) → List (List Char) → List V → List (List Char) × List V
  | [], seen, out => (seen, out)
  | c :: rest, seen, out =>
    match dsuf with
    | some suf =>
      let dk := normName (c ++ suf)
      match lookupKey m dk with
      | some v =>
        if dk ∈ seen then
          let k := normName c
          match lookupKey m k with
          | some w =>
            if k ∈ seen then addPageConstructs m dsuf rest seen out
            else addPageConstructs m dsuf rest (seen ++ [k]) (out ++ [w])
          | none => addPageConstructs m dsuf rest seen out
        else addPageConstructs m dsuf rest (seen ++ [dk]) (out ++ [v])
      | none =>
        let k := normName c
        match lookupKey m k with
        | some w =>
          if k ∈ seen then addPageConstructs m dsuf rest seen out
          else addPageConstructs m dsuf rest (seen ++ [k]) (out ++ [w])
        | none => addPageConstructs m dsuf rest seen out
    | none =>
      let k := normName c
      match lookupKey m k with
      | some w =>
        if k ∈ seen then addPageConstructs m dsuf rest seen out
        else addPageConstructs m dsuf rest (seen ++ [k]) (out ++ [w])
      | none => addPageConstructs m dsuf rest seen out

/-- Processing of the pages in caller-supplied order (the
`add_page_constructs(args.page1) ... add_page_constructs(args.page4)` sequence),
each with its own optional distinct suffix; returns the emitted values. -/
def processPages {V : Type*} (m : List (List Char × V))
    (pages : List (List (List Char) × Option (List Char))) : List V :=
  (pages.foldl (fun st page => addPageConstructs m page.2 page.1 st.1 st.2)
    ([], [])).2

/-! ## Helper lemmas on `pyInt` -/

theorem pyInt_of_nonneg {q : ℚ} (h : 0 ≤ q) : pyInt q = ⌊q⌋ := by
  simp [pyInt, not_lt.mpr h]

theorem pyInt_le {q : ℚ} {z : ℤ} (h0 : 0 ≤ q) (h : q ≤ (z : ℚ)) : pyInt q ≤ z := by
  rw [pyInt_of_nonneg h0]
  have := Int.floor_le_floor h
  rwa [Int.floor_intCast] at this

theorem le_pyInt {q : ℚ} {z : ℤ} (hz : 0 ≤ z) (h : (z : ℚ) ≤ q) : z ≤ pyInt q := by
  have h0 : (0 : ℚ) ≤ q := le_trans (by exact_mod_cast hz) h
  rw [pyInt_of_nonneg h0]
  exact Int.le_floor.mpr h

/-! ## Claim C2: contain / cover fit policies -/

/-- Claim C2: for every item with positive intrinsic width and height placed
into a cell, the contain fit (scale `min(cellW/itemW, cellH/itemH)`) never
exceeds the cell in either dimension, and the cover fit (scale
`max(cellW/itemW, cellH/itemH)`) is at least the cell in both dimensions. -/
theorem contain_cover_fit_bounds (cw ch pw ph : ℤ)
    (hpw : 0 < pw) (hph : 0 < ph) (hcw : 0 ≤ cw) (hch : 0 ≤ ch) :
    (containFit cw ch pw ph).1 ≤ cw ∧ (containFit cw ch pw ph).2 ≤ ch ∧
    cw ≤ (coverFit cw ch pw ph).1 ∧ ch ≤ (coverFit cw ch pw ph).2 := by
  have hpw' : (0 : ℚ) < (pw : ℚ) := by exact_mod_cast hpw
  have hph' : (0 : ℚ) < (ph : ℚ) := by exact_mod_cast hph
  have hcw' : (0 : ℚ) ≤ (cw : ℚ) := by exact_mod_cast hcw
  have hch' : (0 : ℚ) ≤ (ch : ℚ) := by exact_mod_cast hch
  have hrw : (0 : ℚ) ≤ (cw : ℚ) / (pw : ℚ) := div_nonneg hcw' (le_of_lt hpw')
  have hrh : (0 : ℚ) ≤ (ch : ℚ) / (ph : ℚ) := div_nonneg hch' (le_of_lt hph')
  have hwcancel : (pw : ℚ) * ((cw : ℚ) / (pw : ℚ)) = (cw : ℚ) := by
    field_simp
  have hhcancel : (ph : ℚ) * ((ch : ℚ) / (ph : ℚ)) = (ch : ℚ) := by
    field_simp
  refine ⟨?_, ?_, ?_, ?_⟩
  · apply pyInt_le (mul_nonneg (le_of_lt hpw') (le_min hrw hrh))
    calc (pw : ℚ) * min ((cw : ℚ) / (pw : ℚ)) ((ch : ℚ) / (ph : ℚ))
        ≤ (pw : ℚ) * ((cw : ℚ) / (pw : ℚ)) :=
          mul_le_mul_of_nonneg_left (min_le_left _ _) (le_of_lt hpw')
      _ = (cw : ℚ) := hwcancel
  · apply pyInt_le (mul_nonneg (le_of_lt hph') (le_min hrw hrh))
    calc (ph : ℚ) * min ((cw : ℚ) / (pw : ℚ)) ((ch : ℚ) / (ph : ℚ))
        ≤ (ph : ℚ) * ((ch : ℚ) / (ph : ℚ)) :=
          mul_le_mul_of_nonneg_left (min_le_right _ _) (le_of_lt hph')
      _ = (ch : ℚ) := hhcancel
  · apply le_pyInt hcw
    calc (cw : ℚ) = (pw : ℚ) * ((cw : ℚ) / (pw : ℚ)) := hwcancel.symm
      _ ≤ (pw : ℚ) * max ((cw : ℚ) / (pw : ℚ)) ((ch : ℚ) / (ph : ℚ)) :=
          mul_le_mul_of_nonneg_left (le_max_left _ _) (le_of_lt hpw')
  · apply le_pyInt hch
    calc (ch : ℚ) = (ph : ℚ) * ((ch : ℚ) / (ph : ℚ)) := hhcancel.symm
      _ ≤ (ph : ℚ) * max ((cw : ℚ) / (pw : ℚ)) ((ch : ℚ) / (ph : ℚ)) :=
          mul_le_mul_of_nonneg_left (le_max_right _ _) (le_of_lt hph')

/-- Claim C2 witness: the fit bounds at a concrete cell (100 x 50) and item (30 x 20). -/
theorem contain_cover_fit_bounds_witness :
    (0 : ℤ) < 30 ∧ (0 : ℤ) < 20 ∧ (0 : ℤ) ≤ 100 ∧ (0 : ℤ) ≤ 50 ∧
    ((containFit 100 50 30 20).1 ≤ 100 ∧ (containFit 100 50 30 20).2 ≤ 50 ∧
     100 ≤ (coverFit 100 50 30 20).1 ∧ 50 ≤ (coverFit 100 50 30 20).2) :=
  ⟨by decide, by decide, by decide, by decide,
   contain_cover_fit_bounds 100 50 30 20 (by decide) (by decide) (by decide) (by decide)⟩

/-! ## Claim C10: single-slide functions cap items at cols*rows -/

/-- Claim C10: the single-canvas grid functions enumerate `items[: cols * rows]`
only, so exactly `min(len(items), cols * rows)` items are placed, in input
order, and all later items are silently ignored (no wrapping, no error). -/
theorem single_slide_places_min (rowOrder : Bool) (cols rows : Nat)
    (cellW cellH capH hs vs oL oT : ℤ) (items : List (ℤ × ℤ)) :
    (fillGridPlacements rowOrder cols rows cellW cellH hs vs oL oT items).length
        = min items.length (cols * rows) ∧
    (fillGridPlacements rowOrder cols rows cellW cellH hs vs oL oT items).map Prod.fst
        = items.take (cols * rows) ∧
    (capGridPlacements cols rows cellW cellH capH hs vs oL oT items).length
        = min items.length (cols * rows) ∧
    (capGridPlacements cols rows cellW cellH capH hs vs oL oT items).map Prod.fst
        = items.take (cols * rows) := by
  refine ⟨?_, ?_, ?_, ?_⟩
  · simp [fillGridPlacements, List.enum_length, Nat.min_comm]
  · rw [fillGridPlacements, List.map_map]
    exact List.enum_map_snd _
  · simp [capGridPlacements, List.enum_length, Nat.min_comm]
  · rw [capGridPlacements, List.map_map]
    exact List.enum_map_snd _

/-! ## Claim C9: grid centering -/

/-- Claim C9 counterexample: `grid_positions` in `make_maldi_ppt.py` performs no
clamping; on a 10-unit page with margin 1 and a 20-unit grid the returned
origin is -5, i.e. negative, contradicting the claim that origins are clamped
to the margin boundary and never negative. -/
theorem grid_positions_negative_origin :
    gridLeft 10 1 20 = -5 ∧ gridLeft 10 1 20 < 0 ∧
    gridPositions 1 1 20 5 0 0 10 10 1 = [(-5, 5/2)] := by
  refine ⟨by norm_num [gridLeft], by norm_num [gridLeft], ?_⟩
  have hr : List.range 1 = [0] := rfl
  simp only [gridPositions, gridLeft, hr, List.flatMap_cons, List.flatMap_nil,
    List.map_cons, List.map_nil, List.append_nil, Nat.cast_zero]
  norm_num

/-- Claim C9 amended: `grid_positions` centers the grid exactly — the computed
origin equals `(page - grid) / 2`, so the surplus (which may be negative, with
no clamping) is split evenly on both sides; `build_pptx` in
`make_hplc_pptx.py` clamps its centering margin at zero (not at the margin
boundary), so its origin is never negative. -/
theorem grid_centering_amended (pageW m gridW slideW gW : ℚ) :
    gridLeft pageW m gridW = (pageW - gridW) / 2 ∧
    pageW - (gridLeft pageW m gridW + gridW) = gridLeft pageW m gridW ∧
    0 ≤ hplcCenterMargin slideW gW := by
  refine ⟨?_, ?_, le_max_left 0 _⟩
  · unfold gridLeft; ring
  · unfold gridLeft; ring

/-! ## Claim C3: degenerate grid geometry -/

/-- Claim C3 counterexample: requesting a 100 x 100 grid on a 10 x 10-unit
canvas with margin 1 raises no error; the engine silently computes a zero cell
size and returns a zero-size placement for a 5 x 5 item. -/
theorem degenerate_grid_returns_zero_placement :
    thtCellW 10 1 0 100 = 0 ∧ thtCellH 10 10 1 0 0 100 100 = 0 ∧
    containFit (thtCellW 10 1 0 100) (thtCellH 10 10 1 0 0 100 100) 5 5 = (0, 0) := by
  have h1 : availSize 10 1 0 100 = 8 := by norm_num [availSize]
  have h2 : thtCellW 10 1 0 100 = 0 := by
    rw [thtCellW, h1, pyInt_of_nonneg (by norm_num)]
    norm_num [Int.floor_eq_iff]
  have h3 : thtCellH 10 10 1 0 0 100 100 = 0 := by
    rw [thtCellH, h2, h1]
    rw [pyInt_of_nonneg (by norm_num), pyInt_of_nonneg (by norm_num)]
    norm_num [Int.floor_eq_iff]
  refine ⟨h2, h3, ?_⟩
  rw [h2, h3]
  have : (min ((0 : ℚ) / 5) ((0 : ℚ) / 5)) = 0 := by norm_num
  simp [containFit, this, pyInt_of_nonneg]

/-- Claim C3 amended: the grid layout functions perform no geometry validation
and raise nothing: an unsatisfiable request (100 x 100 cells on a 10 x 10-unit
canvas with margin 1) silently yields a zero cell size — or a negative one when
spacing is added — and zero-size placements, and the captioned variant clamps
the per-cell image height to a minimum of one unit. -/
theorem degenerate_grid_silently_degrades :
    thtCellW 10 1 0 100 = 0 ∧
    thtCellW 10 1 2 100 = -1 ∧
    capCellH 10 1 0 100 = 0 ∧
    capImgH (capCellH 10 1 0 100) 5 = 1 ∧
    (fillGridPlacements true 100 100 0 0 0 0 0 0 [(5, 5)]).map
        (fun p => (p.2.2.2.1, p.2.2.2.2)) = [(0, 0)] := by
  have h1 : availSize 10 1 0 100 = 8 := by norm_num [availSize]
  have h2 : thtCellW 10 1 0 100 = 0 := by
    rw [thtCellW, h1, pyInt_of_nonneg (by norm_num)]
    norm_num [Int.floor_eq_iff]
  have h3 : availSize 10 1 2 100 = -190 := by norm_num [availSize]
  have h4 : thtCellW 10 1 2 100 = -1 := by
    rw [thtCellW, h3, pyInt]
    rw [if_pos (by norm_num)]
    norm_num [Int.ceil_eq_iff]
  have h5 : capCellH 10 1 0 100 = 0 := by
    rw [capCellH, h1, pyInt_of_nonneg (by norm_num)]
    norm_num [Int.floor_eq_iff]
  have h6 : capImgH (capCellH 10 1 0 100) 5 = 1 := by
    rw [h5]; decide
  refine ⟨h2, h4, h5, h6, ?_⟩
  have hfit : containFit 0 0 5 5 = (0, 0) := by
    have : (min ((0 : ℚ) / 5) ((0 : ℚ) / 5)) = 0 := by norm_num
    simp [containFit, this, pyInt_of_nonneg]
  simp [fillGridPlacements, slotRC, hfit]

/-! ## Claim C8: empty item list -/

/-- Claim C8 counterexample: `build_pptx` in `make_hplc_pptx.py` adds one slide
before its placement loop, so an empty item list produces one (empty) canvas,
not zero as claimed. -/
theorem empty_items_one_hplc_canvas :
    hplcSlideCount 8 6 ([] : List Unit) = 1 ∧
    hplcSlideCount 8 6 ([] : List Unit) ≠ 0 := by
  exact ⟨rfl, by decide⟩

/-- Claim C8 amended: an empty item list is handled without error by both grid
engines; the THT paginated engine produces zero canvases, while `build_pptx`
produces exactly one empty canvas. -/
theorem empty_items_amended {α : Type*} (per pr pc : Nat) :
    chunks per ([] : List α) = [] ∧ hplcSlideCount pr pc ([] : List α) = 1 :=
  ⟨rfl, rfl⟩

/-! ## Pagination lemmas (claim C1) -/

theorem chunksAux_eq {α : Type*} (per : Nat) (hper : 0 < per) :
    ∀ (f1 : Nat) (l : List α) (f2 : Nat), l.length ≤ f1 → l.length ≤ f2 →
      chunksAux per f1 l = chunksAux per f2 l := by
  intro f1
  induction f1 with
  | zero =>
    intro l f2 h1 _
    have hl : l = [] := List.eq_nil_of_length_eq_zero (Nat.le_zero.mp h1)
    subst hl
    cases f2 <;> rfl
  | succ f ih =>
    intro l f2 h1 h2
    cases l with
    | nil => cases f2 <;> rfl
    | cons x xs =>
      cases f2 with
      | zero => simp at h2
      | succ g =>
        simp only [chunksAux]
        congr 1
        apply ih
        · rw [List.length_drop]
          simp only [List.length_cons] at h1 ⊢
          omega
        · rw [List.length_drop]
          simp only [List.length_cons] at h2 ⊢
          omega

theorem chunks_cons {α : Type*} (per : Nat) (hper : 0 < per) (x : α) (xs : List α) :
    chunks per (x :: xs) = (x :: xs).take per :: chunks per ((x :: xs).drop per) := by
  unfold chunks
  simp only [List.length_cons, chunksAux]
  congr 1
  apply chunksAux_eq per hper
  · rw [List.length_drop]
    simp only [List.length_cons]
    omega
  · exact le_rfl

theorem chunks_length {α : Type*} (per : Nat) (hper : 0 < per) (l : List α) :
    (chunks per l).length = (l.length + per - 1) / per := by
  suffices h : ∀ (n : Nat) (l : List α), l.length ≤ n →
      (chunks per l).length = (l.length + per - 1) / per from h l.length l le_rfl
  intro n
  induction n with
  | zero =>
    intro l h1
    have hl : l = [] := List.eq_nil_of_length_eq_zero (Nat.le_zero.mp h1)
    subst hl
    simp [chunks, chunksAux, Nat.div_eq_of_lt (by omega : per - 1 < per)]
  | succ n ih =>
    intro l h1
    cases l with
    | nil => simp [chunks, chunksAux, Nat.div_eq_of_lt (by omega : per - 1 < per)]
    | cons x xs =>
      rw [chunks_cons per hper]
      simp only [List.length_cons]
      rw [ih ((x :: xs).drop per)
        (by rw [List.length_drop]; simp only [List.length_cons] at h1 ⊢; omega)]
      rw [List.length_drop]
      simp only [List.length_cons]
      by_cases hle : xs.length + 1 ≤ per
      · have h0 : xs.length + 1 - per = 0 := by omega
        rw [h0]
        have hrhs : (xs.length + 1 + per - 1) / per = 1 :=
          Nat.div_eq_of_lt_le (by omega) (by omega)
        rw [hrhs, Nat.div_eq_of_lt (by omega : 0 + per - 1 < per)]
      · have e1 : xs.length + 1 - per + per - 1 = xs.length := by omega
        have e2 : xs.length + 1 + per - 1 = xs.length + per := by omega
        rw [e1, e2, Nat.add_div_right _ hper]

theorem chunks_sizes {α : Type*} (per : Nat) (hper : 0 < per) (l : List α) :
    ∀ ch ∈ chunks per l, ch.length ≤ per := by
  suffices h : ∀ (n : Nat) (l : List α), l.length ≤ n →
      ∀ ch ∈ chunks per l, ch.length ≤ per from h l.length l le_rfl
  intro n
  induction n with
  | zero =>
    intro l h1 ch hch
    have hl : l = [] := List.eq_nil_of_length_eq_zero (Nat.le_zero.mp h1)
    subst hl
    simp [chunks, chunksAux] at hch
  | succ n ih =>
    intro l h1 ch hch
    cases l with
    | nil => simp [chunks, chunksAux] at hch
    | cons x xs =>
      rw [chunks_cons per hper] at hch
      rcases List.mem_cons.mp hch with h | h
      · subst h
        simp [List.length_take]
      · exact ih ((x :: xs).drop per)
          (by rw [List.length_drop]; simp only [List.length_cons] at h1 ⊢; omega) ch h

theorem chunks_flatten {α : Type*} (per : Nat) (hper : 0 < per) (l : List α) :
    (chunks per l).flatten = l := by
  suffices h : ∀ (n : Nat) (l : List α), l.length ≤ n →
      (chunks per l).flatten = l from h l.length l le_rfl
  intro n
  induction n with
  | zero =>
    intro l h1
    have hl : l = [] := List.eq_nil_of_length_eq_zero (Nat.le_zero.mp h1)
    subst hl
    rfl
  | succ n ih =>
    intro l h1
    cases l with
    | nil => rfl
    | cons x xs =>
      rw [chunks_cons per hper, List.flatten_cons,
        ih ((x :: xs).drop per)
          (by rw [List.length_drop]; simp only [List.length_cons] at h1 ⊢; omega)]
      exact List.take_append_drop per (x :: xs)

/-! ## HPLC placement loop lemmas (claim C1) -/

theorem hplcGo_map_fst {α : Type*} (pr pc : Nat) :
    ∀ (l : List α) (c r s : Nat), ((hplcGo pr pc c r s l).1).map Prod.fst = l := by
  intro l
  induction l with
  | nil => intro c r s; rfl
  | cons x rest ih =>
    intro c r s
    simp only [hplcGo]
    split
    · split
      · simp [ih]
      · simp [ih]
    · simp [ih]

theorem hplcGo_map_snd {α : Type*} (pr pc : Nat) (hpr : 0 < pr) (hpc : 0 < pc) :
    ∀ (l : List α) (c r s : Nat), c < pr → r * pr + c < pr * pc →
      ((hplcGo pr pc c r s l).1).map Prod.snd
        = (List.range l.length).map (fun k => s + (r * pr + c + k) / (pr * pc)) := by
  intro l
  induction l with
  | nil => intro c r s _ _; rfl
  | cons x rest ih =>
    intro c r s hc hd
    have hcap : 0 < pr * pc := Nat.mul_pos hpr hpc
    have h0 : s + (r * pr + c + 0) / (pr * pc) = s := by
      rw [Nat.add_zero, Nat.div_eq_of_lt hd, Nat.add_zero]
    simp only [hplcGo, List.length_cons]
    rw [List.range_succ_eq_map, List.map_cons, List.map_map]
    by_cases h1 : c + 1 ≥ pr
    · by_cases h2 : r + 1 ≥ pc ∧ rest.isEmpty = false
      · rw [if_pos h1, if_pos h2]
        have e1 : (r + 1) * pr = r * pr + pr := by ring
        have e2 : pc * pr = pr * pc := Nat.mul_comm pc pr
        have e3 : pc * pr ≤ (r + 1) * pr := Nat.mul_le_mul_right pr h2.1
        have hd1 : r * pr + c + 1 = pr * pc := by omega
        simp only [List.map_cons]
        rw [ih 0 0 (s + 1) hpr (by simpa using hcap)]
        refine congrArg₂ List.cons h0.symm ?_
        apply List.map_congr_left
        intro k _
        simp only [Function.comp_apply, Nat.zero_mul, Nat.zero_add]
        have e4 : r * pr + c + Nat.succ k = k + pr * pc := by omega
        rw [e4, Nat.add_div_right _ hcap]
        omega
      · rw [if_pos h1, if_neg h2]
        cases rest with
        | nil =>
          simp only [hplcGo, List.map_cons, List.map_nil, List.range_zero]
          simp [Nat.div_eq_of_lt hd]
        | cons y ys =>
          have hne : (y :: ys).isEmpty = false := rfl
          have hr1 : r + 1 < pc := by
            rcases not_and_or.mp h2 with h | h
            · omega
            · exact absurd hne h
          have e1 : (r + 1) * pr = r * pr + pr := by ring
          have e2 : pc * pr = pr * pc := Nat.mul_comm pc pr
          have h6 : (r + 1) * pr < pc * pr :=
            Nat.mul_lt_mul_of_lt_of_le hr1 le_rfl hpr
          have hd' : (r + 1) * pr + 0 < pr * pc := by omega
          simp only [List.map_cons]
          rw [ih 0 (r + 1) s hpr hd']
          refine congrArg₂ List.cons h0.symm ?_
          apply List.map_congr_left
          intro k _
          simp only [Function.comp_apply]
          have e4 : (r + 1) * pr + 0 + k = r * pr + c + Nat.succ k := by omega
          rw [e4]
    · rw [if_neg h1]
      have e1 : (r + 1) * pr = r * pr + pr := by ring
      have e2 : pc * pr = pr * pc := Nat.mul_comm pc pr
      have h6 : r * pr < pc * pr := by omega
      have hr : r < pc := Nat.lt_of_mul_lt_mul_right h6
      have h7 : (r + 1) * pr ≤ pc * pr := Nat.mul_le_mul_right pr hr
      have hd' : r * pr + (c + 1) < pr * pc := by omega
      simp only [List.map_cons]
      rw [ih (c + 1) r s (by omega) hd']
      refine congrArg₂ List.cons h0.symm ?_
      apply List.map_congr_left
      intro k _
      simp only [Function.comp_apply]
      have e4 : r * pr + (c + 1) + k = r * pr + c + Nat.succ k := by omega
      rw [e4]

theorem hplcGo_final {α : Type*} (pr pc : Nat) (hpr : 0 < pr) (hpc : 0 < pc) :
    ∀ (l : List α) (c r s : Nat), c < pr → r * pr + c < pr * pc →
      (hplcGo pr pc c r s l).2
        = s + (if l.isEmpty then 0 else (r * pr + c + l.length - 1) / (pr * pc)) := by
  intro l
  induction l with
  | nil => intro c r s _ _; rfl
  | cons x rest ih =>
    intro c r s hc hd
    have hcap : 0 < pr * pc := Nat.mul_pos hpr hpc
    simp only [hplcGo, List.isEmpty_cons, List.length_cons, Bool.false_eq_true,
      if_false]
    by_cases h1 : c + 1 ≥ pr
    · by_cases h2 : r + 1 ≥ pc ∧ rest.isEmpty = false
      · rw [if_pos h1, if_pos h2]
        have e1 : (r + 1) * pr = r * pr + pr := by ring
        have e2 : pc * pr = pr * pc := Nat.mul_comm pc pr
        have e3 : pc * pr ≤ (r + 1) * pr := Nat.mul_le_mul_right pr h2.1
        have hd1 : r * pr + c + 1 = pr * pc := by omega
        rw [ih 0 0 (s + 1) hpr (by simpa using hcap)]
        rw [if_neg (by simp [h2.2])]
        have hrl : 1 ≤ rest.length := by
          cases rest with
          | nil => simp at h2
          | cons y ys => simp
        have e4 : r * pr + c + (rest.length + 1) - 1 = (rest.length - 1) + pr * pc := by
          omega
        rw [e4, Nat.add_div_right _ hcap]
        have e5 : 0 * pr + 0 + rest.length - 1 = rest.length - 1 := by omega
        rw [e5]
        omega
      · rw [if_pos h1, if_neg h2]
        cases rest with
        | nil =>
          simp only [hplcGo, List.length_nil]
          have e4 : r * pr + c + (0 + 1) - 1 = r * pr + c := by omega
          rw [e4, Nat.div_eq_of_lt hd]
          omega
        | cons y ys =>
          have hne : (y :: ys).isEmpty = false := rfl
          have hr1 : r + 1 < pc := by
            rcases not_and_or.mp h2 with h | h
            · omega
            · exact absurd hne h
          have e1 : (r + 1) * pr = r * pr + pr := by ring
          have e2 : pc * pr = pr * pc := Nat.mul_comm pc pr
          have h6 : (r + 1) * pr < pc * pr :=
            Nat.mul_lt_mul_of_lt_of_le hr1 le_rfl hpr
          have hd' : (r + 1) * pr + 0 < pr * pc := by omega
          rw [ih 0 (r + 1) s hpr hd']
          rw [if_neg (by simp)]
          have e4 : (r + 1) * pr + 0 + (y :: ys).length - 1
              = r * pr + c + ((y :: ys).length + 1) - 1 := by
            simp only [List.length_cons]
            omega
          rw [e4]
    · rw [if_neg h1]
      have e1 : (r + 1) * pr = r * pr + pr := by ring
      have e2 : pc * pr = pr * pc := Nat.mul_comm pc pr
      have h6 : r * pr < pc * pr := by omega
      have hr : r < pc := Nat.lt_of_mul_lt_mul_right h6
      have h7 : (r + 1) * pr ≤ pc * pr := Nat.mul_le_mul_right pr hr
      have hd' : r * pr + (c + 1) < pr * pc := by omega
      rw [ih (c + 1) r s (by omega) hd']
      cases rest with
      | nil =>
        simp only [List.isEmpty_nil, if_true, List.length_nil]
        have e4 : r * pr + c + (0 + 1) - 1 = r * pr + c := by omega
        rw [e4, Nat.div_eq_of_lt hd]
      | cons y ys =>
        rw [if_neg (by simp)]
        have e4 : r * pr + (c + 1) + (y :: ys).length - 1
            = r * pr + c + ((y :: ys).length + 1) - 1 := by
          simp only [List.length_cons]
          omega
        rw [e4]

theorem range_div_countP_le (n cap d s t : Nat) (hcap : 0 < cap) :
    ((List.range n).countP (fun k => s + (d + k) / cap = t)) ≤ cap := by
  rw [List.countP_eq_length_filter]
  set S := (List.range n).filter (fun k => s + (d + k) / cap = t) with hS
  have hnd : S.Nodup := (List.nodup_range n).filter _
  have hq : ∀ k ∈ S, s + (d + k) / cap = t := by
    intro k hk
    have := (List.mem_filter.mp hk).2
    exact of_decide_eq_true this
  have hmapnd : (S.map (fun k => (d + k) % cap)).Nodup := by
    apply List.Nodup.map_on ?_ hnd
    intro x hx y hy hmod
    have hdx := hq x hx
    have hdy := hq y hy
    have hdiv : (d + x) / cap = (d + y) / cap := by omega
    have ex := Nat.div_add_mod (d + x) cap
    have ey := Nat.div_add_mod (d + y) cap
    rw [hdiv] at ex
    omega
  have hsub : ∀ z ∈ S.map (fun k => (d + k) % cap), z ∈ List.range cap := by
    intro z hz
    rcases List.mem_map.mp hz with ⟨k, _, rfl⟩
    exact List.mem_range.mpr (Nat.mod_lt _ hcap)
  have hcard : (S.map (fun k => (d + k) % cap)).length ≤ cap := by
    have h1 : (S.map (fun k => (d + k) % cap)).toFinset.card
        = (S.map (fun k => (d + k) % cap)).length :=
      List.toFinset_card_of_nodup hmapnd
    have h2 : (S.map (fun k => (d + k) % cap)).toFinset ⊆ (List.range cap).toFinset := by
      intro z hz
      exact List.mem_toFinset.mpr (hsub z (List.mem_toFinset.mp hz))
    have h3 := Finset.card_le_card h2
    have h4 := List.toFinset_card_le (List.range cap)
    rw [h1] at h3
    simpa [List.length_range] using le_trans h3 h4
  simpa using hcard

theorem hplc_per_canvas_le {α : Type*} (pr pc : Nat) (hpr : 0 < pr) (hpc : 0 < pc)
    (l : List α) (j : Nat) :
    ((hplcPlacements pr pc l).filter (fun p => p.2 = j)).length ≤ pr * pc := by
  have hcap : 0 < pr * pc := Nat.mul_pos hpr hpc
  have hsnd := hplcGo_map_snd pr pc hpr hpc l 0 0 0 hpr (by simpa using hcap)
  rw [← List.countP_eq_length_filter]
  have h1 : (hplcPlacements pr pc l).countP (fun p => p.2 = j)
      = ((hplcPlacements pr pc l).map Prod.snd).countP (fun z => z = j) := by
    rw [List.countP_map]
    rfl
  rw [h1, hplcPlacements, hsnd, List.countP_map]
  have h2 : ((fun z => decide (z = j)) ∘ fun k => 0 + (0 * pr + 0 + k) / (pr * pc))
      = fun k => decide (0 + (0 * pr + 0 + k) / (pr * pc) = j) := rfl
  calc (List.range l.length).countP
        ((fun z => decide (z = j)) ∘ fun k => 0 + (0 * pr + 0 + k) / (pr * pc))
      = (List.range l.length).countP
        (fun k => 0 + (0 * pr + 0 + k) / (pr * pc) = j) := by rw [h2]
    _ ≤ pr * pc := range_div_countP_le l.length (pr * pc) (0 * pr + 0) 0 j hcap

theorem hplcSlideCount_eq {α : Type*} (pr pc : Nat) (hpr : 0 < pr) (hpc : 0 < pc)
    (l : List α) (hl : l ≠ []) :
    hplcSlideCount pr pc l = (l.length + pr * pc - 1) / (pr * pc) := by
  have hcap : 0 < pr * pc := Nat.mul_pos hpr hpc
  unfold hplcSlideCount
  rw [hplcGo_final pr pc hpr hpc l 0 0 0 hpr (by simpa using hcap)]
  have hne : l.isEmpty = false := by
    cases l with
    | nil => exact absurd rfl hl
    | cons y ys => rfl
  rw [hne]
  simp only [Bool.false_eq_true, if_false]
  have hll : 1 ≤ l.length := by
    cases l with
    | nil => exact absurd rfl hl
    | cons y ys => simp
  have e1 : 0 * pr + 0 + l.length - 1 = l.length - 1 := by omega
  have e2 : l.length + pr * pc - 1 = (l.length - 1) + pr * pc := by omega
  rw [e1, e2, Nat.add_div_right _ hcap]
  omega

/-! ## Claim C1: pagination -/

/-- Claim C1 counterexample: for the empty item list, `build_pptx` produces one
canvas while `ceil(0 / (rows * cols)) = 0`, so the canvas count of the HPLC
engine does not equal the claimed ceiling for every item list. -/
theorem hplc_empty_breaks_ceil :
    ¬ (hplcSlideCount 4 3 ([] : List Unit)
        = (List.length ([] : List Unit) + 4 * 3 - 1) / (4 * 3)) := by
  decide

/-- Claim C1 amended: pagination fills canvases in input order with at most
`rows * cols` items per canvas, and the number of canvases is
`ceil(itemCount / (rows * cols))` — for the THT paginated engine on every item
list, and for `build_pptx` on every nonempty item list (an empty list yields
one empty canvas there).  In particular 12 items on a 4-by-3 grid fill exactly
1 canvas, and 13 items fill 2 canvases with exactly 1 item on the second. -/
theorem placeItems_pagination_amended {α : Type*} (l : List α) (pr pc : Nat)
    (hpr : 0 < pr) (hpc : 0 < pc) :
    (chunks (pr * pc) l).length = (l.length + pr * pc - 1) / (pr * pc) ∧
    (∀ ch ∈ chunks (pr * pc) l, ch.length ≤ pr * pc) ∧
    (chunks (pr * pc) l).flatten = l ∧
    (hplcPlacements pr pc l).map Prod.fst = l ∧
    (∀ j, ((hplcPlacements pr pc l).filter (fun p => p.2 = j)).length ≤ pr * pc) ∧
    (l ≠ [] → hplcSlideCount pr pc l = (l.length + pr * pc - 1) / (pr * pc)) ∧
    (chunks 12 (List.range 12)).length = 1 ∧
    (chunks 12 (List.range 13)).length = 2 ∧
    (chunks 12 (List.range 13)).getLast? = some [12] ∧
    hplcSlideCount 4 3 (List.range 12) = 1 ∧
    hplcSlideCount 4 3 (List.range 13) = 2 ∧
    ((hplcPlacements 4 3 (List.range 13)).filter (fun p => p.2 = 1)).length = 1 := by
  have hcap : 0 < pr * pc := Nat.mul_pos hpr hpc
  refine ⟨chunks_length _ hcap l, chunks_sizes _ hcap l, chunks_flatten _ hcap l,
    hplcGo_map_fst pr pc l 0 0 0, fun j => hplc_per_canvas_le pr pc hpr hpc l j,
    fun hl => hplcSlideCount_eq pr pc hpr hpc l hl,
    by decide, by decide, by decide, by decide, by decide, by decide⟩

/-- Claim C1 witness: the amended pagination theorem applied to a concrete
5-item list on a 4-by-3 grid. -/
theorem placeItems_pagination_amended_witness :
    0 < 4 ∧ 0 < 3 ∧
    (chunks (4 * 3) (List.range 5)).length
      = ((List.range 5).length + 4 * 3 - 1) / (4 * 3) :=
  ⟨by decide, by decide,
    (placeItems_pagination_amended (List.range 5) 4 3 (by decide) (by decide)).1⟩

/-! ## Suffix round-trip lemmas (claim C7) -/

theorem pyReplaceFuel_nil (pat : List Char) (fuel : Nat) :
    pyReplaceFuel pat fuel [] = [] := by
  cases fuel <;> rfl

theorem pyReplace_append_self (pat : List Char) (hne : pat ≠ [])
    (hnb : ∀ k, k < pat.length → 0 < k →
      pat.take k ≠ pat.drop (pat.length - k)) :
    ∀ (fuel : Nat) (x : List Char), x.length < fuel → ¬ pat <:+: x →
      pyReplaceFuel pat fuel (x ++ pat) = x := by
  intro fuel
  induction fuel with
  | zero => intro x hlen _; exact absurd hlen (Nat.not_lt_zero _)
  | succ f ih =>
    intro x hlen hinf
    cases x with
    | nil =>
      simp only [List.nil_append]
      have hpre : pat.isPrefixOf pat = true :=
        List.isPrefixOf_iff_prefix.mpr (List.prefix_refl pat)
      cases hp : pat with
      | nil => exact absurd hp hne
      | cons pc prest =>
        rw [hp] at hpre
        simp only [pyReplaceFuel]
        rw [if_pos ⟨by simp, hpre⟩, List.drop_length, pyReplaceFuel_nil]
    | cons a rest =>
      simp only [List.cons_append]
      rw [show pyReplaceFuel pat (f + 1) (a :: (rest ++ pat))
          = if pat ≠ [] ∧ pat.isPrefixOf (a :: (rest ++ pat)) then
              pyReplaceFuel pat f ((a :: (rest ++ pat)).drop pat.length)
            else a :: pyReplaceFuel pat f (rest ++ pat) from rfl]
      by_cases hpre : pat.isPrefixOf (a :: (rest ++ pat)) = true
      · exfalso
        have hpre' : pat <+: (a :: rest) ++ pat := by
          rw [List.cons_append]
          exact List.isPrefixOf_iff_prefix.mp hpre
        have h1 := List.prefix_iff_eq_take.mp hpre'
        rw [List.take_append_eq_append_take] at h1
        by_cases hlen2 : pat.length ≤ (a :: rest).length
        · have h0 : pat.length - (a :: rest).length = 0 := by omega
          rw [h0, List.take_zero, List.append_nil] at h1
          have hpx : pat <+: a :: rest := List.prefix_iff_eq_take.mpr h1
          exact hinf hpx.isInfix
        · push_neg at hlen2
          have htx : List.take pat.length (a :: rest) = a :: rest :=
            List.take_of_length_le (le_of_lt hlen2)
          rw [htx] at h1
          have hdrop : pat.drop (a :: rest).length
              = pat.take (pat.length - (a :: rest).length) := by
            conv_lhs => rw [h1]
            exact List.drop_left _ _
          have hk1 : 0 < pat.length - (a :: rest).length := by omega
          have hk2 : pat.length - (a :: rest).length < pat.length := by
            have : 0 < (a :: rest).length := by simp
            omega
          have hb := hnb (pat.length - (a :: rest).length) hk2 hk1
          have hnk : pat.length - (pat.length - (a :: rest).length)
              = (a :: rest).length := by omega
          rw [hnk] at hb
          exact hb hdrop.symm
      · rw [if_neg (by simp [hpre])]
        congr 1
        apply ih rest ?_ ?_
        · simp only [List.length_cons] at hlen
          omega
        · intro hx
          exact hinf (List.infix_cons hx)

/-! ## Claim C7: disambiguation suffix round-trip -/

/-- Claim C7: applying the `_p3distinct` disambiguation suffix (the Page-3
rename in `plot_hplc.py`) and then stripping it with
`s.replace("_p3distinct", "")` is an exact round-trip on every string that
does not already contain the suffix. -/
theorem suffix_round_trip (x : List Char) (h : ¬ p3suffix <:+: x) :
    stripP3Suffix (applyP3Suffix x) = x := by
  unfold stripP3Suffix applyP3Suffix
  apply pyReplace_append_self p3suffix (by decide) (by decide)
  · rw [List.length_append]
    have : 0 < p3suffix.length := by decide
    omega
  · exact h

/-- Claim C7 witness: the round-trip at the concrete construct name `SSS`. -/
theorem suffix_round_trip_witness :
    ¬ p3suffix <:+: "SSS".data ∧
    stripP3Suffix (applyP3Suffix "SSS".data) = "SSS".data :=
  ⟨by decide, suffix_round_trip "SSS".data (by decide)⟩

/-! ## Matcher lemmas (claim C6) -/

theorem addPage_skip_seen {V : Type*} (m : List (List Char × V)) (c : List Char)
    (rest : List (List Char)) (seen : List (List Char)) (out : List V)
    (h : normName c ∈ seen) :
    addPageConstructs m none (c :: rest) seen out
      = addPageConstructs m none rest seen out := by
  simp only [addPageConstructs]
  split
  · rw [if_pos h]
  · rfl

theorem addPage_mono {V : Type*} (m : List (List Char × V)) :
    ∀ (page : List (List Char)) (seen : List (List Char)) (out : List V),
      (∀ k ∈ seen, k ∈ (addPageConstructs m none page seen out).1) ∧
      (∀ v ∈ out, v ∈ (addPageConstructs m none page seen out).2) := by
  intro page
  induction page with
  | nil => intro seen out; exact ⟨fun k hk => hk, fun v hv => hv⟩
  | cons c rest ih =>
    intro seen out
    simp only [addPageConstructs]
    split
    · rename_i w hlk
      by_cases hseen : normName c ∈ seen
      · rw [if_pos hseen]
        exact ih seen out
      · rw [if_neg hseen]
        refine ⟨fun k hk => ?_, fun v hv => ?_⟩
        · exact (ih (seen ++ [normName c]) (out ++ [w])).1 k
            (List.mem_append.mpr (Or.inl hk))
        · exact (ih (seen ++ [normName c]) (out ++ [w])).2 v
            (List.mem_append.mpr (Or.inl hv))
    · exact ih seen out

theorem addPage_mem {V : Type*} (m : List (List Char × V)) :
    ∀ (page : List (List Char)) (seen : List (List Char)) (out : List V)
      (c : List Char) (v : V), c ∈ page → lookupKey m (normName c) = some v →
      normName c ∈ (addPageConstructs m none page seen out).1 ∧
      (normName c ∈ seen ∨ v ∈ (addPageConstructs m none page seen out).2) := by
  intro page
  induction page with
  | nil => intro seen out c v hc _; exact absurd hc (List.not_mem_nil c)
  | cons c' rest ih =>
    intro seen out c v hc hv
    rcases List.mem_cons.mp hc with rfl | hcr
    · simp only [addPageConstructs]
      split
      · rename_i w hlk
        have hwv : w = v := by
          rw [hv] at hlk
          exact (Option.some_inj.mp hlk).symm
        subst hwv
        by_cases hseen : normName c ∈ seen
        · rw [if_pos hseen]
          exact ⟨(addPage_mono m rest seen out).1 _ hseen, Or.inl hseen⟩
        · rw [if_neg hseen]
          refine ⟨(addPage_mono m rest (seen ++ [normName c]) (out ++ [w])).1 _
            (List.mem_append.mpr (Or.inr (List.mem_singleton.mpr rfl))), Or.inr ?_⟩
          exact (addPage_mono m rest (seen ++ [normName c]) (out ++ [w])).2 _
            (List.mem_append.mpr (Or.inr (List.mem_singleton.mpr rfl)))
      · rename_i hlk
        rw [hv] at hlk
        exact absurd hlk (Option.some_ne_none v)
    · simp only [addPageConstructs]
      split
      · rename_i w hlk
        by_cases hseen : normName c' ∈ seen
        · rw [if_pos hseen]
          exact ih seen out c v hcr hv
        · rw [if_neg hseen]
          obtain ⟨h1, h2⟩ := ih (seen ++ [normName c']) (out ++ [w]) c v hcr hv
          refine ⟨h1, ?_⟩
          rcases h2 with h2 | h2
          · rcases List.mem_append.mp h2 with h3 | h3
            · exact Or.inl h3
            · have hkey : normName c = normName c' := List.mem_singleton.mp h3
              have hvw : v = w := by
                rw [hkey] at hv
                rw [hv] at hlk
                exact Option.some_inj.mp hlk
              subst hvw
              refine Or.inr ?_
              exact (addPage_mono m rest (seen ++ [normName c']) (out ++ [v])).2 _
                (List.mem_append.mpr (Or.inr (List.mem_singleton.mpr rfl)))
          · exact Or.inr h2
      · exact ih seen out c v hcr hv

/-! ## Claim C6: cross-source priority matching -/

/-- Claim C6 counterexample: on the claimed example (`itemKeys = {"ggg"}`,
source A = `["GGG"]`, source B = `["ggg_alt"]`) the code emits nothing at all:
`_norm_name` neither lower-cases (`"GGG"` keeps its case) nor rewrites
underscores (`"ggg_alt"` stays distinct from `"ggg"`), so neither raw name
normalizes to `"ggg"` and the output is `[]`, not `["GGG"]`. -/
theorem match_example_emits_nothing :
    processPages [("ggg".data, (0 : Nat))]
        [(["GGG".data], none), (["ggg_alt".data], none)] = [] ∧
    normName "GGG".data ≠ "ggg".data ∧
    normName "ggg_alt".data ≠ "ggg".data := by
  decide

/-- Claim C6 amended: `add_page_constructs` processes sources strictly in
caller order with a seen-set.  When an earlier source contains a raw name
whose normalized key is in the item map, the mapped entry is emitted during
that earlier source's pass and its key enters the seen-set, and any raw name
in a later source with the same normalized key is skipped (emitting nothing).
For raw names that really collide under `_norm_name` — e.g. `"ggg"` and
`"ggg "` — the entry for key `"ggg"` is emitted exactly once, by the first
source. -/
theorem match_priority_amended {V : Type*} (m : List (List Char × V))
    (p1 p2 : List (List Char)) (c1 c2 : List Char) (v : V)
    (hc1 : c1 ∈ p1) (heq : normName c1 = normName c2)
    (hv : lookupKey m (normName c1) = some v) :
    normName c2 ∈ (addPageConstructs m none p1 [] []).1 ∧
    v ∈ (addPageConstructs m none p1 [] []).2 ∧
    (∀ (seen : List (List Char)) (out : List V), normName c2 ∈ seen →
      addPageConstructs m none (c2 :: p2) seen out
        = addPageConstructs m none p2 seen out) ∧
    processPages [("ggg".data, (0 : Nat))]
        [(["ggg".data], none), (["ggg ".data], none)] = [0] ∧
    processPages [("ggg".data, (0 : Nat))] [(["ggg".data], none)] = [0] := by
  obtain ⟨h1, h2⟩ := addPage_mem m p1 [] [] c1 v hc1 hv
  rcases h2 with h2 | h2
  · exact absurd h2 (List.not_mem_nil _)
  · exact ⟨heq ▸ h1, h2,
      fun seen out hs => addPage_skip_seen m c2 p2 seen out hs,
      by decide, by decide⟩

/-- Claim C6 witness: the amended matcher theorem at the concrete item map
`{"ggg" -> 0}` with first source `["ggg"]` and duplicate raw name `"ggg "`. -/
theorem match_priority_amended_witness :
    "ggg".data ∈ ["ggg".data] ∧
    normName "ggg".data = normName "ggg ".data ∧
    lookupKey [("ggg".data, (0 : Nat))] (normName "ggg".data) = some 0 ∧
    normName "ggg ".data
      ∈ (addPageConstructs [("ggg".data, (0 : Nat))] none ["ggg".data] [] []).1 ∧
    0 ∈ (addPageConstructs [("ggg".data, (0 : Nat))] none ["ggg".data] [] []).2 := by
  have h := match_priority_amended [("ggg".data, (0 : Nat))] ["ggg".data] []
    "ggg".data "ggg ".data 0 (by decide) (by decide) (by decide)
  exact ⟨by decide, by decide, by decide, h.1, h.2.1⟩

/-! ## Character-level lemmas (claims C4, C5) -/

theorem lowerChar_master (c : Char) :
    lowerChar c = c ∨ (c ∈ upperAscii ∧ lowerChar c ∈ lowerAscii) := by
  unfold lowerChar
  split
  · rename_i p hp
    have hmem := List.mem_of_find?_eq_some hp
    have hpc : p.1 = c := by simpa using List.find?_some hp
    have hall : ∀ q ∈ asciiPairs, q.1 ∈ upperAscii ∧ q.2 ∈ lowerAscii := by decide
    exact Or.inr ⟨hpc ▸ (hall p hmem).1, (hall p hmem).2⟩
  · exact Or.inl rfl

theorem lowerChar_eq_iff (c d : Char) (hd1 : d ∉ upperAscii) (hd2 : d ∉ lowerAscii) :
    lowerChar c = d ↔ c = d := by
  constructor
  · intro h
    rcases lowerChar_master c with h1 | ⟨_, h2⟩
    · rw [← h1]; exact h
    · rw [h] at h2; exact absurd h2 hd2
  · rintro rfl
    rcases lowerChar_master c with h1 | ⟨h1, _⟩
    · exact h1
    · exact absurd h1 hd1

theorem lowerChar_idem (c : Char) : lowerChar (lowerChar c) = lowerChar c := by
  rcases lowerChar_master c with h | ⟨_, h⟩
  · rw [h]; exact h
  · have hall : ∀ d ∈ lowerAscii, lowerChar d = d := by decide
    exact hall _ h

theorem isWs_lowerChar (c : Char) : isWs (lowerChar c) = isWs c := by
  rcases lowerChar_master c with h | ⟨h1, h2⟩
  · rw [h]
  · have hu : ∀ d ∈ upperAscii, isWs d = false := by decide
    have hl : ∀ d ∈ lowerAscii, isWs d = false := by decide
    rw [hu _ h1, hl _ h2]

theorem isZw_lowerChar (c : Char) : isZw (lowerChar c) = isZw c := by
  rcases lowerChar_master c with h | ⟨h1, h2⟩
  · rw [h]
  · have hu : ∀ d ∈ upperAscii, isZw d = false := by decide
    have hl : ∀ d ∈ lowerAscii, isZw d = false := by decide
    rw [hu _ h1, hl _ h2]

theorem u2s_lowerChar (c : Char) : u2s (lowerChar c) = lowerChar (u2s c) := by
  by_cases hc : c = '_'
  · subst hc; decide
  · have h1 : u2s c = c := if_neg hc
    have h2 : lowerChar c ≠ '_' := fun h =>
      hc ((lowerChar_eq_iff c '_' (by decide) (by decide)).mp h)
    have h3 : u2s (lowerChar c) = lowerChar c := if_neg h2
    rw [h1, h3]

theorem u2s_eq_lparen (c : Char) : u2s c = '(' ↔ c = '(' := by
  by_cases h : c = '_' <;> simp [u2s, h]

theorem u2s_eq_rparen (c : Char) : u2s c = ')' ↔ c = ')' := by
  by_cases h : c = '_' <;> simp [u2s, h]

theorem u2s_idem (c : Char) : u2s (u2s c) = u2s c := by
  by_cases h : c = '_' <;> simp [u2s, h]

theorem isWs_u2s (c : Char) : isWs (u2s c) = isWs c := by
  by_cases h : c = '_'
  · subst h
    decide
  · simp [u2s, h]

theorem isZw_u2s (c : Char) : isZw (u2s c) = isZw c := by
  by_cases h : c = '_'
  · subst h
    decide
  · simp [u2s, h]

theorem u2s_eq_space (c : Char) : u2s c = ' ' ↔ c = ' ' := by
  by_cases h : c = '_' <;> simp [u2s, h]

theorem lowerChar_eq_lparen (c : Char) : lowerChar c = '(' ↔ c = '(' :=
  lowerChar_eq_iff c '(' (by decide) (by decide)

theorem lowerChar_eq_rparen (c : Char) : lowerChar c = ')' ↔ c = ')' :=
  lowerChar_eq_iff c ')' (by decide) (by decide)

theorem lowerChar_eq_space (c : Char) : lowerChar c = ' ' ↔ c = ' ' :=
  lowerChar_eq_iff c ' ' (by decide) (by decide)

/-! ## parenFixGo lemmas (claims C4, C5) -/

theorem parenFixGo_nil (b : Bool) : parenFixGo b [] = [] := by
  cases b <;> rfl

theorem parenFixGo_false_cons (c : Char) (rest : List Char) :
    parenFixGo false (c :: rest)
      = if c = '(' ∧ ')' ∈ rest then '(' :: parenFixGo true rest
        else c :: parenFixGo false rest := rfl

theorem parenFixGo_true_cons (c : Char) (rest : List Char) :
    parenFixGo true (c :: rest)
      = if c = ')' then ')' :: parenFixGo false rest
        else u2s c :: parenFixGo true rest := rfl

theorem rparen_eq_u2s (c : Char) : (')' = u2s c) ↔ (')' = c) := by
  rw [eq_comm, u2s_eq_rparen, eq_comm]

theorem rparen_mem_parenFixGo : ∀ (b : Bool) (l : List Char),
    ')' ∈ parenFixGo b l ↔ ')' ∈ l := by
  intro b l
  induction l generalizing b with
  | nil => rw [parenFixGo_nil]
  | cons c rest ih =>
    cases b with
    | false =>
      rw [parenFixGo_false_cons]
      by_cases h : c = '(' ∧ ')' ∈ rest
      · rw [if_pos h]
        simp only [List.mem_cons, ih true]
        rw [h.1]
      · rw [if_neg h]
        simp only [List.mem_cons, ih false]
    | true =>
      rw [parenFixGo_true_cons]
      by_cases h : c = ')'
      · subst h
        rw [if_pos rfl]
        simp [List.mem_cons, ih false]
      · rw [if_neg h]
        simp only [List.mem_cons, ih true, rparen_eq_u2s]

theorem parenFixGo_head : ∀ l : List Char, (parenFixGo false l).head? = l.head? := by
  intro l
  cases l with
  | nil => rfl
  | cons c rest =>
    rw [parenFixGo_false_cons]
    by_cases h : c = '(' ∧ ')' ∈ rest
    · rw [if_pos h, h.1]
      rfl
    · rw [if_neg h]
      rfl

theorem mem_parenFixGo : ∀ (b : Bool) (l : List Char) (d : Char),
    d ∈ parenFixGo b l → d ∈ l ∨ d = '/' := by
  intro b l
  induction l generalizing b with
  | nil => intro d h; rw [parenFixGo_nil] at h; exact absurd h (List.not_mem_nil d)
  | cons c rest ih =>
    intro d hd
    cases b with
    | false =>
      rw [parenFixGo_false_cons] at hd
      by_cases h : c = '(' ∧ ')' ∈ rest
      · rw [if_pos h] at hd
        rcases List.mem_cons.mp hd with h1 | h1
        · left; rw [h1, h.1]; exact List.mem_cons_self _ _
        · rcases ih true d h1 with h2 | h2
          · exact Or.inl (List.mem_cons_of_mem _ h2)
          · exact Or.inr h2
      · rw [if_neg h] at hd
        rcases List.mem_cons.mp hd with h1 | h1
        · left; rw [h1]; exact List.mem_cons_self _ _
        · rcases ih false d h1 with h2 | h2
          · exact Or.inl (List.mem_cons_of_mem _ h2)
          · exact Or.inr h2
    | true =>
      rw [parenFixGo_true_cons] at hd
      by_cases h : c = ')'
      · rw [if_pos h] at hd
        rcases List.mem_cons.mp hd with h1 | h1
        · left; rw [h1, h]; exact List.mem_cons_self _ _
        · rcases ih false d h1 with h2 | h2
          · exact Or.inl (List.mem_cons_of_mem _ h2)
          · exact Or.inr h2
      · rw [if_neg h] at hd
        rcases List.mem_cons.mp hd with h1 | h1
        · by_cases hc : c = '_'
          · right; rw [h1, hc]; rfl
          · left; rw [h1, show u2s c = c from if_neg hc]
            exact List.mem_cons_self _ _
        · rcases ih true d h1 with h2 | h2
          · exact Or.inl (List.mem_cons_of_mem _ h2)
          · exact Or.inr h2

theorem parenFixGo_map_isWs : ∀ (b : Bool) (l : List Char),
    (parenFixGo b l).map isWs = l.map isWs := by
  intro b l
  induction l generalizing b with
  | nil => rw [parenFixGo_nil]
  | cons c rest ih =>
    cases b with
    | false =>
      rw [parenFixGo_false_cons]
      by_cases h : c = '(' ∧ ')' ∈ rest
      · rw [if_pos h]
        simp only [List.map_cons, ih true]
        rw [h.1]
      · rw [if_neg h]
        simp only [List.map_cons, ih false]
    | true =>
      rw [parenFixGo_true_cons]
      by_cases h : c = ')'
      · rw [if_pos h]
        simp only [List.map_cons, ih false]
        rw [h]
      · rw [if_neg h]
        simp only [List.map_cons, ih true, isWs_u2s]

theorem parenFixGo_idem : ∀ (b : Bool) (l : List Char),
    parenFixGo b (parenFixGo b l) = parenFixGo b l := by
  intro b l
  induction l generalizing b with
  | nil => rw [parenFixGo_nil, parenFixGo_nil]
  | cons c rest ih =>
    cases b with
    | false =>
      rw [parenFixGo_false_cons]
      by_cases h : c = '(' ∧ ')' ∈ rest
      · rw [if_pos h, parenFixGo_false_cons]
        have hcond : ('(' : Char) = '(' ∧ ')' ∈ parenFixGo true rest :=
          ⟨rfl, (rparen_mem_parenFixGo true rest).mpr h.2⟩
        rw [if_pos hcond, ih true]
      · rw [if_neg h, parenFixGo_false_cons]
        have hcond : ¬(c = '(' ∧ ')' ∈ parenFixGo false rest) := fun hcc =>
          h ⟨hcc.1, (rparen_mem_parenFixGo false rest).mp hcc.2⟩
        rw [if_neg hcond, ih false]
    | true =>
      rw [parenFixGo_true_cons]
      by_cases h : c = ')'
      · rw [if_pos h, parenFixGo_true_cons, if_pos rfl, ih false]
      · rw [if_neg h, parenFixGo_true_cons]
        have hcond : ¬(u2s c = ')') := fun hc => h ((u2s_eq_rparen c).mp hc)
        rw [if_neg hcond, u2s_idem, ih true]

theorem rparen_mem_map_lower (l : List Char) :
    ')' ∈ l.map lowerChar ↔ ')' ∈ l := by
  constructor
  · intro h
    rcases List.mem_map.mp h with ⟨d, hd, hld⟩
    rwa [(lowerChar_eq_rparen d).mp hld] at hd
  · intro h
    exact List.mem_map.mpr ⟨')', h, by decide⟩

theorem parenFixGo_map_lower : ∀ (b : Bool) (l : List Char),
    parenFixGo b (l.map lowerChar) = (parenFixGo b l).map lowerChar := by
  intro b l
  induction l generalizing b with
  | nil => simp [parenFixGo_nil]
  | cons c rest ih =>
    cases b with
    | false =>
      rw [List.map_cons, parenFixGo_false_cons, parenFixGo_false_cons]
      by_cases h : c = '(' ∧ ')' ∈ rest
      · have hm : lowerChar c = '(' ∧ ')' ∈ rest.map lowerChar :=
          ⟨(lowerChar_eq_lparen c).mpr h.1, (rparen_mem_map_lower rest).mpr h.2⟩
        rw [if_pos h, if_pos hm]
        simp only [List.map_cons, ih true]
        rw [show lowerChar '(' = '(' from by decide]
      · have hm : ¬(lowerChar c = '(' ∧ ')' ∈ rest.map lowerChar) := fun hm =>
          h ⟨(lowerChar_eq_lparen c).mp hm.1, (rparen_mem_map_lower rest).mp hm.2⟩
        rw [if_neg h, if_neg hm]
        simp only [List.map_cons, ih false]
    | true =>
      rw [List.map_cons, parenFixGo_true_cons, parenFixGo_true_cons]
      by_cases h : c = ')'
      · have hm : lowerChar c = ')' := (lowerChar_eq_rparen c).mpr h
        rw [if_pos h, if_pos hm]
        simp only [List.map_cons, ih false]
        rw [show lowerChar ')' = ')' from by decide]
      · have hm : ¬(lowerChar c = ')') := fun hm => h ((lowerChar_eq_rparen c).mp hm)
        rw [if_neg h, if_neg hm]
        simp only [List.map_cons, ih true, u2s_lowerChar]

theorem rparen_mem_filter (p : Char → Bool) (hp2 : p ')' = true) (l : List Char) :
    ')' ∈ l.filter p ↔ ')' ∈ l :=
  ⟨fun h => (List.mem_filter.mp h).1, fun h => List.mem_filter.mpr ⟨h, hp2⟩⟩

theorem parenFixGo_filter (p : Char → Bool) (hp1 : p '(' = true)
    (hp2 : p ')' = true) (hpu : ∀ c, p (u2s c) = p c) :
    ∀ (b : Bool) (l : List Char),
      parenFixGo b (l.filter p) = (parenFixGo b l).filter p := by
  intro b l
  induction l generalizing b with
  | nil => simp [parenFixGo_nil]
  | cons c rest ih =>
    cases b with
    | false =>
      by_cases hpc : p c = true
      · rw [List.filter_cons_of_pos hpc, parenFixGo_false_cons,
          parenFixGo_false_cons]
        by_cases h : c = '(' ∧ ')' ∈ rest
        · have hm : c = '(' ∧ ')' ∈ rest.filter p :=
            ⟨h.1, (rparen_mem_filter p hp2 rest).mpr h.2⟩
          rw [if_pos h, if_pos hm, List.filter_cons_of_pos hp1, ih true]
        · have hm : ¬(c = '(' ∧ ')' ∈ rest.filter p) := fun hm =>
            h ⟨hm.1, (rparen_mem_filter p hp2 rest).mp hm.2⟩
          rw [if_neg h, if_neg hm, List.filter_cons_of_pos hpc, ih false]
      · rw [List.filter_cons_of_neg hpc, parenFixGo_false_cons]
        have h : ¬(c = '(' ∧ ')' ∈ rest) := fun hcc => hpc (by rw [hcc.1]; exact hp1)
        rw [if_neg h, List.filter_cons_of_neg hpc, ih false]
    | true =>
      by_cases hpc : p c = true
      · rw [List.filter_cons_of_pos hpc, parenFixGo_true_cons, parenFixGo_true_cons]
        by_cases h : c = ')'
        · rw [if_pos h, if_pos h, List.filter_cons_of_pos hp2, ih false]
        · rw [if_neg h, if_neg h,
            List.filter_cons_of_pos (by rw [hpu]; exact hpc), ih true]
      · rw [List.filter_cons_of_neg hpc, parenFixGo_true_cons]
        have h : ¬(c = ')') := fun hc => hpc (by rw [hc]; exact hp2)
        rw [if_neg h, List.filter_cons_of_neg (by rw [hpu]; exact hpc), ih true]

/-! ## Strip and filter lemmas (claims C4, C5) -/

theorem dropWhile_filter_comm (p : Char → Bool)
    (hp : ∀ c, p c = false → isWs c = true) :
    ∀ l : List Char, (l.dropWhile isWs).filter p = (l.filter p).dropWhile isWs := by
  intro l
  induction l with
  | nil => rfl
  | cons c rest ih =>
    by_cases hw : isWs c = true
    · by_cases hpc : p c = true
      · rw [List.dropWhile_cons, if_pos hw, List.filter_cons_of_pos hpc,
          List.dropWhile_cons, if_pos hw, ih]
      · rw [List.dropWhile_cons, if_pos hw, List.filter_cons_of_neg hpc, ih]
    · have hpc : p c = true := by
        cases hpcc : p c with
        | false => exact absurd (hp c hpcc) hw
        | true => rfl
      rw [List.dropWhile_cons, if_neg hw, List.filter_cons_of_pos hpc,
        List.dropWhile_cons, if_neg hw]

theorem dropTrail_filter_comm (p : Char → Bool)
    (hp : ∀ c, p c = false → isWs c = true) (l : List Char) :
    (dropTrail isWs l).filter p = dropTrail isWs (l.filter p) := by
  unfold dropTrail
  rw [List.filter_reverse, dropWhile_filter_comm p hp, List.filter_reverse]

theorem pyStrip_filter_comm (p : Char → Bool)
    (hp : ∀ c, p c = false → isWs c = true) (l : List Char) :
    (pyStrip l).filter p = pyStrip (l.filter p) := by
  unfold pyStrip
  rw [dropTrail_filter_comm p hp, dropWhile_filter_comm p hp]

theorem eraseSpaces_pyStrip (l : List Char) :
    eraseSpaces (pyStrip l) = pyStrip (eraseSpaces l) := by
  apply pyStrip_filter_comm
  intro c h
  have hc : c = ' ' := by simpa using h
  rw [hc]; decide

theorem removeZw_eraseSpaces (l : List Char) :
    removeZw (eraseSpaces l) = eraseSpaces (removeZw l) :=
  List.filter_comm _ _ l

theorem head_dropWhile_not (p : Char → Bool) :
    ∀ (l : List Char) (c : Char), (l.dropWhile p).head? = some c → p c = false := by
  intro l
  induction l with
  | nil => intro c h; exact absurd h (by simp)
  | cons d rest ih =>
    intro c h
    rw [List.dropWhile_cons] at h
    by_cases hd : p d = true
    · rw [if_pos hd] at h
      exact ih c h
    · rw [if_neg hd] at h
      have hdc : d = c := by simpa using h
      rw [← hdc]
      simpa using hd

theorem dropTrail_getLast_not (p : Char → Bool) (l : List Char) (c : Char)
    (h : (dropTrail p l).getLast? = some c) : p c = false := by
  unfold dropTrail at h
  rw [List.getLast?_reverse] at h
  exact head_dropWhile_not p _ c h

theorem dropTrail_append_takeWhile (p : Char → Bool) (u : List Char) :
    dropTrail p u ++ (u.reverse.takeWhile p).reverse = u := by
  unfold dropTrail
  rw [← List.reverse_append, List.takeWhile_append_dropWhile, List.reverse_reverse]

theorem dropTrail_head (p : Char → Bool) (u : List Char) (c : Char)
    (h : (dropTrail p u).head? = some c) : u.head? = some c := by
  have hdec := dropTrail_append_takeWhile p u
  cases hd : dropTrail p u with
  | nil => rw [hd] at h; exact absurd h (by simp)
  | cons d t =>
    rw [hd] at h hdec
    rw [← hdec, List.cons_append]
    simpa using h

theorem pyStrip_head_not_ws (l : List Char) (c : Char)
    (h : (pyStrip l).head? = some c) : isWs c = false := by
  unfold pyStrip at h
  exact head_dropWhile_not isWs l c (dropTrail_head isWs _ c h)

theorem pyStrip_getLast_not_ws (l : List Char) (c : Char)
    (h : (pyStrip l).getLast? = some c) : isWs c = false :=
  dropTrail_getLast_not isWs _ c h

theorem filter_head_transfer (p : Char → Bool) (v : List Char)
    (hv : ∀ c, v.head? = some c → isWs c = false)
    (hsp : ∀ c, isWs c = false → p c = true) :
    ∀ c, (v.filter p).head? = some c → isWs c = false := by
  intro c h
  cases v with
  | nil => exact absurd h (by simp)
  | cons d rest =>
    have hd : isWs d = false := hv d rfl
    rw [List.filter_cons_of_pos (hsp d hd)] at h
    have hdc : d = c := by simpa using h
    rw [← hdc]
    exact hd

theorem filter_getLast_transfer (p : Char → Bool) (v : List Char)
    (hv : ∀ c, v.getLast? = some c → isWs c = false)
    (hsp : ∀ c, isWs c = false → p c = true) :
    ∀ c, (v.filter p).getLast? = some c → isWs c = false := by
  intro c h
  have hv' : ∀ c, v.reverse.head? = some c → isWs c = false := by
    intro d hd
    exact hv d (by rwa [List.head?_reverse] at hd)
  apply filter_head_transfer p v.reverse hv' hsp c
  rw [← List.head?_reverse, ← List.filter_reverse] at h
  exact h

theorem dropWhile_eq_self_of_head (p : Char → Bool) (l : List Char)
    (h : ∀ c, l.head? = some c → p c = false) : l.dropWhile p = l := by
  cases l with
  | nil => rfl
  | cons c rest =>
    rw [List.dropWhile_cons, if_neg (by simp [h c rfl])]

theorem dropTrail_eq_self_of_getLast (p : Char → Bool) (l : List Char)
    (h : ∀ c, l.getLast? = some c → p c = false) : dropTrail p l = l := by
  unfold dropTrail
  rw [dropWhile_eq_self_of_head p l.reverse
    (fun c hc => h c (by rwa [List.head?_reverse] at hc)), List.reverse_reverse]

theorem pyStrip_eq_self (l : List Char)
    (h1 : ∀ c, l.head? = some c → isWs c = false)
    (h2 : ∀ c, l.getLast? = some c → isWs c = false) : pyStrip l = l := by
  unfold pyStrip
  rw [dropWhile_eq_self_of_head isWs l h1, dropTrail_eq_self_of_getLast isWs l h2]

theorem parenFixGo_append_split (b : List Char) (hb : ')' ∉ b) :
    ∀ a : List Char,
      (parenFixGo false (a ++ b) = parenFixGo false a ++ parenFixGo false b) ∧
      (')' ∈ a → parenFixGo true (a ++ b) = parenFixGo true a ++ parenFixGo false b) := by
  intro a
  induction a with
  | nil =>
    refine ⟨by rw [List.nil_append, parenFixGo_nil, List.nil_append], ?_⟩
    intro h
    exact absurd h (List.not_mem_nil _)
  | cons c a' ih =>
    refine ⟨?_, ?_⟩
    · rw [List.cons_append, parenFixGo_false_cons, parenFixGo_false_cons]
      by_cases h : c = '(' ∧ ')' ∈ a'
      · have hm : c = '(' ∧ ')' ∈ a' ++ b := ⟨h.1, List.mem_append.mpr (Or.inl h.2)⟩
        rw [if_pos hm, if_pos h, ih.2 h.2, List.cons_append]
      · have hm : ¬(c = '(' ∧ ')' ∈ a' ++ b) := by
          intro hm
          rcases List.mem_append.mp hm.2 with h2 | h2
          · exact h ⟨hm.1, h2⟩
          · exact hb h2
        rw [if_neg hm, if_neg h, ih.1, List.cons_append]
    · intro hmem
      rw [List.cons_append, parenFixGo_true_cons, parenFixGo_true_cons]
      by_cases h : c = ')'
      · rw [if_pos h, if_pos h, ih.1, List.cons_append]
      · have h2 : ')' ∈ a' := by
          rcases List.mem_cons.mp hmem with h1 | h1
          · exact absurd h1.symm h
          · exact h1
        rw [if_neg h, if_neg h, ih.2 h2, List.cons_append]

theorem parenFixGo_false_id_of_no_lparen (l : List Char) (h : '(' ∉ l) :
    parenFixGo false l = l := by
  induction l with
  | nil => rfl
  | cons c rest ih =>
    have hc : ¬(c = '(' ∧ ')' ∈ rest) := by
      intro hc
      exact h (hc.1 ▸ List.mem_cons_self c rest)
    rw [parenFixGo_false_cons, if_neg hc,
      ih (fun hm => h (List.mem_cons_of_mem _ hm))]

theorem dropWhile_append_of_all (p : Char → Bool) :
    ∀ (u v : List Char), (∀ c ∈ u, p c = true) →
      (u ++ v).dropWhile p = v.dropWhile p := by
  intro u
  induction u with
  | nil => intro v _; rfl
  | cons c u' ih =>
    intro v h
    rw [List.cons_append, List.dropWhile_cons, if_pos (h c (List.mem_cons_self _ _))]
    exact ih v (fun d hd => h d (List.mem_cons_of_mem _ hd))

theorem dropTrail_append_of_all (p : Char → Bool) (u v : List Char)
    (hv : ∀ c ∈ v, p c = true) (hu : ∀ c, u.getLast? = some c → p c = false) :
    dropTrail p (u ++ v) = u := by
  unfold dropTrail
  rw [List.reverse_append, dropWhile_append_of_all p v.reverse u.reverse
    (fun c hc => hv c (List.mem_reverse.mp hc))]
  rw [dropWhile_eq_self_of_head p u.reverse
    (fun c hc => hu c (by rwa [List.head?_reverse] at hc)), List.reverse_reverse]

theorem parenFixGo_getLast_ws (a : List Char)
    (ha : ∀ c, a.getLast? = some c → isWs c = false) :
    ∀ c, (parenFixGo false a).getLast? = some c → isWs c = false := by
  intro c hc
  have h1 : ((parenFixGo false a).map isWs).getLast? = some (isWs c) := by
    rw [List.getLast?_map, hc]
    rfl
  rw [parenFixGo_map_isWs, List.getLast?_map] at h1
  cases hv : a.getLast? with
  | none => rw [hv] at h1; exact absurd h1 (by simp)
  | some d =>
    rw [hv] at h1
    have hdc : isWs d = isWs c := by simpa using h1
    rw [← hdc]
    exact ha d hv

theorem parenFix_dropTrail (l : List Char) :
    parenFixGo false (dropTrail isWs l) = dropTrail isWs (parenFixGo false l) := by
  have hdec := dropTrail_append_takeWhile isWs l
  have hbws : ∀ c ∈ (l.reverse.takeWhile isWs).reverse, isWs c = true := by
    intro c hc
    exact List.mem_takeWhile_imp (List.mem_reverse.mp hc)
  have hbr : ')' ∉ (l.reverse.takeWhile isWs).reverse := fun hc =>
    absurd (hbws ')' hc) (by decide)
  have hbl : '(' ∉ (l.reverse.takeWhile isWs).reverse := fun hc =>
    absurd (hbws '(' hc) (by decide)
  have halast : ∀ c, (dropTrail isWs l).getLast? = some c → isWs c = false :=
    fun c hc => dropTrail_getLast_not isWs l c hc
  conv_rhs => rw [← hdec]
  rw [(parenFixGo_append_split _ hbr (dropTrail isWs l)).1,
    parenFixGo_false_id_of_no_lparen _ hbl,
    dropTrail_append_of_all isWs _ _ hbws (parenFixGo_getLast_ws _ halast)]

theorem parenFix_dropWhile (l : List Char) :
    parenFixGo false (l.dropWhile isWs) = (parenFixGo false l).dropWhile isWs := by
  induction l with
  | nil => rfl
  | cons c rest ih =>
    by_cases hw : isWs c = true
    · have hc : ¬(c = '(' ∧ ')' ∈ rest) := by
        intro h
        rw [h.1] at hw
        exact absurd hw (by decide)
      rw [List.dropWhile_cons, if_pos hw, parenFixGo_false_cons, if_neg hc,
        List.dropWhile_cons, if_pos hw, ih]
    · rw [List.dropWhile_cons, if_neg hw,
        dropWhile_eq_self_of_head isWs _ ?_]
      intro d hd
      rw [parenFixGo_head] at hd
      have hdc : c = d := by simpa using hd
      rw [← hdc]
      simpa using hw

theorem parenFix_pyStrip (l : List Char) :
    parenFixGo false (pyStrip l) = pyStrip (parenFixGo false l) := by
  unfold pyStrip
  rw [parenFix_dropTrail, parenFix_dropWhile]

theorem mem_dropWhile (p : Char → Bool) :
    ∀ (l : List Char) (c : Char), c ∈ l.dropWhile p → c ∈ l := by
  intro l
  induction l with
  | nil => intro c h; exact absurd h (List.not_mem_nil c)
  | cons d rest ih =>
    intro c h
    rw [List.dropWhile_cons] at h
    by_cases hd : p d = true
    · rw [if_pos hd] at h
      exact List.mem_cons_of_mem _ (ih c h)
    · rw [if_neg hd] at h
      exact h

theorem mem_pyStrip (l : List Char) (c : Char) (h : c ∈ pyStrip l) : c ∈ l := by
  unfold pyStrip dropTrail at h
  exact mem_dropWhile isWs l c
    (List.mem_reverse.mp (mem_dropWhile isWs _ c (List.mem_reverse.mp h)))

theorem bne_space_of_not_ws (c : Char) (h : isWs c = false) : (c != ' ') = true := by
  by_cases hc : c = ' '
  · rw [hc] at h
    exact absurd h (by decide)
  · simpa using hc

theorem normalize_no_zw (x : List Char) :
    ∀ c ∈ normalizeNameForMatch x, isZw c = false := by
  intro c hc
  unfold normalizeNameForMatch lowerStr parenFix at hc
  rcases List.mem_map.mp hc with ⟨d, hd, hdc⟩
  rw [← hdc, isZw_lowerChar]
  rcases mem_parenFixGo false _ d hd with hm | hm
  · unfold eraseSpaces at hm
    have h1 := (List.mem_filter.mp hm).1
    have h2 := mem_pyStrip _ d h1
    unfold removeZw at h2
    have h3 := (List.mem_filter.mp h2).2
    simpa using h3
  · rw [hm]
    decide

theorem normalize_no_space (x : List Char) :
    ∀ c ∈ normalizeNameForMatch x, (c != ' ') = true := by
  intro c hc
  unfold normalizeNameForMatch lowerStr parenFix at hc
  rcases List.mem_map.mp hc with ⟨d, hd, hdc⟩
  have hd' : (d != ' ') = true := by
    rcases mem_parenFixGo false _ d hd with hm | hm
    · unfold eraseSpaces at hm
      exact (List.mem_filter.mp hm).2
    · rw [hm]
      decide
  rw [← hdc]
  have hds : d ≠ ' ' := by simpa using hd'
  have : lowerChar d ≠ ' ' := fun hl => hds ((lowerChar_eq_space d).mp hl)
  simpa using this

theorem normalize_head_not_ws (x : List Char) :
    ∀ c, (normalizeNameForMatch x).head? = some c → isWs c = false := by
  intro c h
  unfold normalizeNameForMatch lowerStr parenFix at h
  rw [List.head?_map, parenFixGo_head] at h
  have hw : ∀ d, (eraseSpaces (pyStrip (removeZw x))).head? = some d → isWs d = false :=
    filter_head_transfer _ _ (fun d hd => pyStrip_head_not_ws _ d hd)
      (fun d hd => bne_space_of_not_ws d hd)
  cases he : (eraseSpaces (pyStrip (removeZw x))).head? with
  | none => rw [he] at h; exact absurd h (by simp)
  | some d =>
    rw [he] at h
    have hdc : lowerChar d = c := by simpa using h
    rw [← hdc, isWs_lowerChar]
    exact hw d he

theorem normalize_getLast_not_ws (x : List Char) :
    ∀ c, (normalizeNameForMatch x).getLast? = some c → isWs c = false := by
  intro c h
  unfold normalizeNameForMatch lowerStr parenFix at h
  rw [List.getLast?_map] at h
  have hw : ∀ d, (eraseSpaces (pyStrip (removeZw x))).getLast? = some d → isWs d = false :=
    filter_getLast_transfer _ _ (fun d hd => pyStrip_getLast_not_ws _ d hd)
      (fun d hd => bne_space_of_not_ws d hd)
  have hp := parenFixGo_getLast_ws _ hw
  cases he : (parenFixGo false (eraseSpaces (pyStrip (removeZw x)))).getLast? with
  | none => rw [he] at h; exact absurd h (by simp)
  | some d =>
    rw [he] at h
    have hdc : lowerChar d = c := by simpa using h
    rw [← hdc, isWs_lowerChar]
    exact hp d he

theorem parenFix_eraseSpaces (l : List Char) :
    parenFixGo false (eraseSpaces l) = eraseSpaces (parenFixGo false l) := by
  unfold eraseSpaces
  refine parenFixGo_filter _ (by decide) (by decide) ?_ false l
  intro c
  by_cases hc : c = '_'
  · subst hc
    decide
  · simp [u2s, hc]

theorem parenFix_removeZw (l : List Char) :
    parenFixGo false (removeZw l) = removeZw (parenFixGo false l) := by
  unfold removeZw
  refine parenFixGo_filter _ (by decide) (by decide) ?_ false l
  intro c
  simp [isZw_u2s]

/-- C4: `_normalize_name_for_match` is idempotent — normalising an already
normalised name changes nothing: the output contains no zero-width
characters, no spaces, begins and ends with non-whitespace, is a fixed point
of the parenthesised-group substitution, and is already lower-case. -/
theorem normalize_idempotent (x : List Char) :
    normalizeNameForMatch (normalizeNameForMatch x) = normalizeNameForMatch x := by
  set y := normalizeNameForMatch x with hy
  have hz : removeZw y = y := by
    refine List.filter_eq_self.mpr ?_
    intro c hc
    rw [hy] at hc
    simp [normalize_no_zw x c hc]
  have hstrip : pyStrip y = y := by
    refine pyStrip_eq_self y ?_ ?_
    · rw [hy]
      exact normalize_head_not_ws x
    · rw [hy]
      exact normalize_getLast_not_ws x
  have hsp : eraseSpaces y = y := by
    refine List.filter_eq_self.mpr ?_
    intro c hc
    rw [hy] at hc
    exact normalize_no_space x c hc
  have hpf : parenFix y = y := by
    rw [hy]
    unfold normalizeNameForMatch lowerStr parenFix
    rw [parenFixGo_map_lower, parenFixGo_idem]
  have hls : lowerStr y = y := by
    rw [hy]
    unfold normalizeNameForMatch lowerStr
    rw [List.map_map]
    exact List.map_congr_left (fun a _ => lowerChar_idem a)
  unfold normalizeNameForMatch
  rw [hz, hstrip, hsp, hpf, hls]

/-- C5 (counterexample): two names that differ only in whitespace need not
normalise to the same key.  `"a\tb"` and `"ab"` agree once every whitespace
character is deleted, yet `_normalize_name_for_match` deletes only literal
spaces and strips only the ends, so the interior tab survives. -/
theorem normalize_whitespace_counterexample :
    (('a' :: '\t' :: 'b' :: []).filter (fun c => !isWs c)
        = ('a' :: 'b' :: []).filter (fun c => !isWs c))
    ∧ normalizeNameForMatch ('a' :: '\t' :: 'b' :: [])
        ≠ normalizeNameForMatch ('a' :: 'b' :: []) := by
  decide

/-- C5 (amended): two raw names that agree after deleting literal space
characters, or that agree after the parenthesised-group underscore-to-slash
substitution — in particular names differing only in `_` versus `/` inside a
parenthesised group — normalise to the same key. -/
theorem normalize_separator_invariance (x y : List Char)
    (h : eraseSpaces x = eraseSpaces y ∨ parenFix x = parenFix y) :
    normalizeNameForMatch x = normalizeNameForMatch y := by
  unfold normalizeNameForMatch
  rcases h with h | h
  · simp only [eraseSpaces_pyStrip, ← removeZw_eraseSpaces, h]
  · unfold parenFix at h
    simp only [parenFix, parenFix_eraseSpaces, parenFix_pyStrip, parenFix_removeZw, h]

/-- C5 (witness): the claim's example — `"(V_A_K)80"` and `"(V/A/K)80"`
normalise to the same key. -/
theorem normalize_separator_invariance_witness :
    normalizeNameForMatch
        ('(' :: 'V' :: '_' :: 'A' :: '_' :: 'K' :: ')' :: '8' :: '0' :: [])
      = normalizeNameForMatch
        ('(' :: 'V' :: '/' :: 'A' :: '/' :: 'K' :: ')' :: '8' :: '0' :: []) :=
  normalize_separator_invariance _ _ (Or.inr (by decide))
